import Mathlib

/-!
Shallow embedding of the process-mining core of the value-partners backend:
the variant/case/throughput derivation in
`api/management/commands/create_data.py` (`create_variants`, `add_TPT`,
`get_case_activity_time`, `get_mean_time_per_activity`, `add_time_to_cases`),
the `Activity` model defaults in `api/models.py`, and the date-filter
validation plus variant-filter expansion of `ActivityList.get` in
`api/views/views.py`.

Events are rows of the `Activity` table.  An event log is a `List Event` in
the order the database hands rows back to an unordered queryset
(`Activity.objects.all()`), i.e. ingestion (insertion) order; the position in
the list is the insertion index.  Timestamps are instants measured in seconds
as rationals (`total_seconds()` differences are exact here), and `tpt` is the
model's float field, also as a rational.
-/

namespace VP

/-- One row of the `Activity` model (`api/models.py`, class `Activity`):
`case` foreign key (the case id string, since `Case.id` is a `CharField`),
`timestamp`, `name`, and the derived `tpt` float whose declared default is 0.
The remaining columns (`user`, `user_type`, `automatic`, `rework`,
`case_index`) play no role in the claims; `case_index` is set to the case id
at creation (`save_activity`, create_data.py line 80), so grouping by
`case_index` is grouping by case id. -/
structure Event where
  case_id : String
  timestamp : ℚ
  name : String
  tpt : ℚ
  deriving DecidableEq

/-- `if x in acc: pass else: acc.append(x)` — the body of the
first-seen-order accumulation used for the `cases` list in
`create_variants` (create_data.py lines 623-624). -/
def insertNew {α : Type} [DecidableEq α] (acc : List α) (x : α) : List α :=
  if x ∈ acc then acc else acc ++ [x]

/-- Accumulate the distinct elements of `l` in first-seen order, the way the
`cases` list of `create_variants` (and the key set of a Python dict built by
repeated appends) grows. -/
def firstSeen {α : Type} [DecidableEq α] (l : List α) : List α :=
  l.foldl insertNew []

/-- The `cases` list of `create_variants` (create_data.py lines 615-625):
distinct case ids of the log in first-seen order. -/
def casesList (evs : List Event) : List String :=
  firstSeen (evs.map (fun e => e.case_id))

/-- `variants[case_id]` at the end of the first loop of `create_variants`
(create_data.py line 637): the activity names of the case's events in
iteration order of `Activity.objects.all()` — i.e. ingestion order; the
buffer is never sorted. -/
def caseSeq (evs : List Event) (c : String) : List String :=
  (evs.filter (fun e => e.case_id = c)).map (fun e => e.name)

/-- `timesPerCase[case_id]` (create_data.py line 631): the timestamps of the
case's events in ingestion order. -/
def caseTimes (evs : List Event) (c : String) : List ℚ :=
  (evs.filter (fun e => e.case_id = c)).map (fun e => e.timestamp)

/-- Per-case duration: `times.sort(); (times[-1] - times[0]).total_seconds()`
(create_data.py lines 654-656).  The same quantity is written to
`Case.avg_time` by `add_time_to_cases` (lines 786-796), which orders the
case's activities by timestamp and subtracts the first timestamp from the
last.  On an empty buffer (no events for the case, unreachable from the
call sites) the sentinel 0 is returned. -/
def caseDuration (evs : List Event) (c : String) : ℚ :=
  let ts := List.insertionSort (fun a b => a ≤ b) (caseTimes evs c)
  (ts.getLast?.getD 0) - (ts.head?.getD 0)

/-- The keys of `grouped_data` in `create_variants` (create_data.py lines
640-645): the distinct activity sequences, in first-seen order over the
per-case dict's insertion order. -/
def variantKeys (evs : List Event) : List (List String) :=
  firstSeen ((casesList evs).map (caseSeq evs))

/-- `grouped_data[key]` (create_data.py lines 641-642): the case ids whose
sequence equals `key`, in first-seen case order. -/
def variantGroup (evs : List Event) (key : List String) : List String :=
  (casesList evs).filter (fun c => decide (caseSeq evs c = key))

/-- One row written to the `Variant` model by `create_variants`
(create_data.py lines 660-666).  The `activities` and `cases` columns are
stored as `str(key)` / `str(value)`; here the underlying list is kept and
the Python `str` serialization is modelled separately (`pyStrListOfStrings`
below). -/
structure VariantRec where
  activities : List String
  cases : List String
  number_cases : ℕ
  percentage : ℚ
  avg_time : ℚ
  deriving DecidableEq

/-- The second loop of `create_variants` (create_data.py lines 647-666):
for each distinct sequence, `number_cases = len(value)`,
`percentage = (number_cases / len(cases)) * 100`, and
`avg_time = (Σ member durations) / number_cases`. -/
def createVariants (evs : List Event) : List VariantRec :=
  (variantKeys evs).map (fun key =>
    let members := variantGroup evs key
    { activities := key
      cases := members
      number_cases := members.length
      percentage := ((members.length : ℚ) / ((casesList evs).length : ℚ)) * 100
      avg_time := ((members.map (caseDuration evs)).sum) / (members.length : ℚ) })

/-! ### Helper lemmas about first-seen accumulation and grouping -/

theorem mem_insertNew {α : Type} [DecidableEq α] {acc : List α} {x y : α} :
    y ∈ insertNew acc x ↔ y ∈ acc ∨ y = x := by
  unfold insertNew
  split
  · constructor
    · exact fun h => Or.inl h
    · rintro (h | rfl)
      · exact h
      · assumption
  · simp

theorem nodup_insertNew {α : Type} [DecidableEq α] {acc : List α} (x : α)
    (h : acc.Nodup) : (insertNew acc x).Nodup := by
  unfold insertNew
  split
  · exact h
  · rename_i hx
    simpa [List.nodup_append] using ⟨h, hx⟩

theorem mem_foldl_insertNew {α : Type} [DecidableEq α] (l : List α) :
    ∀ (acc : List α) (y : α), y ∈ l.foldl insertNew acc ↔ y ∈ acc ∨ y ∈ l := by
  induction l with
  | nil => simp
  | cons a t ih =>
    intro acc y
    rw [List.foldl_cons, ih, mem_insertNew, List.mem_cons]
    tauto

theorem nodup_foldl_insertNew {α : Type} [DecidableEq α] (l : List α) :
    ∀ (acc : List α), acc.Nodup → (l.foldl insertNew acc).Nodup := by
  induction l with
  | nil => simp
  | cons a t ih =>
    intro acc hacc
    exact ih _ (nodup_insertNew a hacc)

theorem mem_firstSeen {α : Type} [DecidableEq α] {l : List α} {y : α} :
    y ∈ firstSeen l ↔ y ∈ l := by
  unfold firstSeen
  rw [mem_foldl_insertNew]
  simp

theorem nodup_firstSeen {α : Type} [DecidableEq α] (l : List α) :
    (firstSeen l).Nodup :=
  nodup_foldl_insertNew l [] List.nodup_nil

theorem mem_casesList {evs : List Event} {c : String} :
    c ∈ casesList evs ↔ ∃ e ∈ evs, e.case_id = c := by
  unfold casesList
  rw [mem_firstSeen]
  simp [eq_comm]

theorem nodup_casesList (evs : List Event) : (casesList evs).Nodup :=
  nodup_firstSeen _

theorem nodup_variantKeys (evs : List Event) : (variantKeys evs).Nodup :=
  nodup_firstSeen _

theorem mem_variantKeys {evs : List Event} {k : List String} :
    k ∈ variantKeys evs ↔ ∃ c ∈ casesList evs, caseSeq evs c = k := by
  unfold variantKeys
  rw [mem_firstSeen]
  simp [eq_comm]

theorem mem_variantGroup {evs : List Event} {k : List String} {c : String} :
    c ∈ variantGroup evs k ↔ c ∈ casesList evs ∧ caseSeq evs c = k := by
  unfold variantGroup
  simp

/-- Summing pointwise sums over a map splits into two sums. -/
theorem sum_map_add_split {α : Type} (keys : List α) (f g : α → ℕ) :
    (keys.map (fun k => f k + g k)).sum = (keys.map f).sum + (keys.map g).sum := by
  induction keys with
  | nil => simp
  | cons a t ih =>
    simp only [List.map_cons, List.sum_cons, ih]
    omega

/-- Summing `if p k then 1 else 0` over a list counts the satisfying
elements. -/
theorem sum_map_ite_one {α : Type} (keys : List α) (p : α → Prop) [DecidablePred p] :
    (keys.map (fun k => if p k then 1 else 0)).sum
      = keys.countP (fun k => decide (p k)) := by
  induction keys with
  | nil => simp
  | cons a t ih =>
    rw [List.map_cons, List.sum_cons, List.countP_cons, ih]
    by_cases h : p a <;> simp [h, Nat.add_comm]

/-- In a duplicate-free list, exactly one element satisfies equality with a
member. -/
theorem countP_eq_of_nodup_mem {β : Type} [DecidableEq β] {keys : List β} {b : β}
    (hnd : keys.Nodup) (hb : b ∈ keys) :
    keys.countP (fun k => decide (b = k)) = 1 := by
  have h1 : keys.count b = 1 := List.count_eq_one_of_mem hnd hb
  rw [← h1]
  unfold List.count
  apply List.countP_congr
  intro k _
  constructor
  · intro h
    have hk : b = k := of_decide_eq_true h
    simp [hk]
  · intro h
    have hk : k = b := by simpa using h
    simp [hk]

/-- Partition counting: if every element's key lands in the (duplicate-free)
key list, the filtered group sizes add up to the whole length. -/
theorem sum_group_lengths {α β : Type} [DecidableEq β] (keys : List β)
    (f : α → β) (hnd : keys.Nodup) :
    ∀ l : List α, (∀ x ∈ l, f x ∈ keys) →
      (keys.map (fun k => (l.filter (fun x => decide (f x = k))).length)).sum
        = l.length := by
  intro l
  induction l with
  | nil => simp
  | cons a t ih =>
    intro hmem
    have ht : ∀ x ∈ t, f x ∈ keys := fun x hx => hmem x (List.mem_cons_of_mem _ hx)
    have ha : f a ∈ keys := hmem a (List.mem_cons_self a t)
    have hsplit : ∀ k ∈ keys, ((a :: t).filter (fun x => decide (f x = k))).length
        = (t.filter (fun x => decide (f x = k))).length + if f a = k then 1 else 0 := by
      intro k _
      by_cases h : f a = k <;> simp [List.filter_cons, h, Nat.add_comm]
    rw [List.map_congr_left hsplit, sum_map_add_split, ih ht, sum_map_ite_one,
      countP_eq_of_nodup_mem hnd ha, List.length_cons]

theorem sum_variantGroup_lengths (evs : List Event) :
    ((variantKeys evs).map (fun k => (variantGroup evs k).length)).sum
      = (casesList evs).length := by
  unfold variantGroup
  apply sum_group_lengths _ _ (nodup_variantKeys evs)
  intro c hc
  exact mem_variantKeys.mpr ⟨c, hc, rfl⟩

/-- A fixed sample log, the scenario of spec §8: three cases of two events
each, ingested in chronological order. -/
def sampleLog : List Event :=
  [ ⟨"A", 0, "Create", 0⟩, ⟨"A", 60, "Approve", 0⟩,
    ⟨"B", 0, "Create", 0⟩, ⟨"B", 120, "Approve", 0⟩,
    ⟨"C", 0, "Create", 0⟩, ⟨"C", 30, "Reject", 0⟩ ]

/-- C3: `aggregate` then `classify` (the two loops of `create_variants`)
partitions the case ids: every case id with at least one event lies in the
member list of exactly one produced variant, and the `number_cases` fields
add up to the total number of cases (`len(cases)`, the count of distinct
case ids). -/
theorem create_variants_partition (evs : List Event) :
    (∀ c : String, (∃ e ∈ evs, e.case_id = c) →
        (createVariants evs).countP (fun v => decide (c ∈ v.cases)) = 1)
    ∧ ((createVariants evs).map (fun v => v.number_cases)).sum
        = (casesList evs).length := by
  constructor
  · intro c hc
    have hcl : c ∈ casesList evs := mem_casesList.mpr hc
    unfold createVariants
    rw [List.countP_map]
    have hcongr : ∀ k ∈ variantKeys evs,
        ((fun v : VariantRec => decide (c ∈ v.cases)) ∘
          (fun key =>
            let members := variantGroup evs key
            ({ activities := key
               cases := members
               number_cases := members.length
               percentage := ((members.length : ℚ) / ((casesList evs).length : ℚ)) * 100
               avg_time := ((members.map (caseDuration evs)).sum) / (members.length : ℚ) }
              : VariantRec))) k = true
          ↔ decide (caseSeq evs c = k) = true := by
      intro k _
      simp only [Function.comp]
      by_cases h : caseSeq evs c = k
      · have : c ∈ variantGroup evs k := mem_variantGroup.mpr ⟨hcl, h⟩
        simp [this, h]
      · have : c ∉ variantGroup evs k := fun hmem => h (mem_variantGroup.mp hmem).2
        simp [this, h]
    rw [List.countP_congr hcongr]
    exact countP_eq_of_nodup_mem (nodup_variantKeys evs)
      (mem_variantKeys.mpr ⟨c, hcl, rfl⟩)
  · unfold createVariants
    rw [List.map_map]
    exact sum_variantGroup_lengths evs

/-- Witness for C3 at the sample log: case id `A` appears in exactly one
variant. -/
theorem create_variants_partition_witness :
    (createVariants sampleLog).countP (fun v => decide ("A" ∈ v.cases)) = 1 :=
  (create_variants_partition sampleLog).1 "A"
    ⟨⟨"A", 0, "Create", 0⟩, by decide, rfl⟩

/-- C4: each variant's `percentage` is `(number_cases / len(cases)) * 100 =
100 * number_cases / len(cases)` (create_data.py line 649), and over all
variants the percentages sum to exactly 100 in rational arithmetic whenever
there is at least one case. -/
theorem create_variants_percentage (evs : List Event)
    (h : 0 < (casesList evs).length) :
    (∀ v ∈ createVariants evs,
        v.percentage = 100 * (v.number_cases : ℚ) / ((casesList evs).length : ℚ))
    ∧ ((createVariants evs).map (fun v => v.percentage)).sum = 100 := by
  have hN : ((casesList evs).length : ℚ) ≠ 0 := Nat.cast_ne_zero.mpr h.ne'
  constructor
  · intro v hv
    unfold createVariants at hv
    rcases List.mem_map.mp hv with ⟨k, _, rfl⟩
    show ((((variantGroup evs k).length : ℚ)) / ((casesList evs).length : ℚ)) * 100
      = 100 * (((variantGroup evs k).length : ℚ)) / ((casesList evs).length : ℚ)
    ring
  · unfold createVariants
    rw [List.map_map]
    have hcongr : ∀ k ∈ variantKeys evs,
        ((fun v : VariantRec => v.percentage) ∘
          (fun key =>
            let members := variantGroup evs key
            ({ activities := key
               cases := members
               number_cases := members.length
               percentage := ((members.length : ℚ) / ((casesList evs).length : ℚ)) * 100
               avg_time := ((members.map (caseDuration evs)).sum) / (members.length : ℚ) }
              : VariantRec))) k
          = (fun k => ((variantGroup evs k).length : ℚ)
              * (100 / ((casesList evs).length : ℚ))) k := by
      intro k _
      simp only [Function.comp]
      ring
    rw [List.map_congr_left hcongr]
    have hsum : ((variantKeys evs).map
          (fun k => ((variantGroup evs k).length : ℚ))).sum
        = (((casesList evs).length : ℚ)) := by
      rw [← sum_variantGroup_lengths evs, Nat.cast_list_sum, List.map_map]
      rfl
    calc ((variantKeys evs).map
          (fun k => ((variantGroup evs k).length : ℚ)
            * (100 / ((casesList evs).length : ℚ)))).sum
        = ((variantKeys evs).map
            (fun k => ((variantGroup evs k).length : ℚ))).sum
              * (100 / ((casesList evs).length : ℚ)) := by
          rw [← List.sum_map_mul_right]
      _ = 100 := by
          rw [hsum]
          field_simp

/-- Witness for C4 at the sample log (3 cases): percentages sum to 100. -/
theorem create_variants_percentage_witness :
    ((createVariants sampleLog).map (fun v => v.percentage)).sum = 100 :=
  (create_variants_percentage sampleLog (by decide)).2

/-- C7: on an empty event log `create_variants` produces no variants at all,
and the division by `len(cases)` (create_data.py line 649) only ever runs
for a log whose case list is nonempty: the body of the per-variant loop is
unreachable when the log is empty, so no ZeroDivisionError can occur. -/
theorem create_variants_empty_log :
    createVariants ([] : List Event) = []
    ∧ ∀ evs : List Event, createVariants evs ≠ [] →
        (casesList evs).length ≠ 0 := by
  constructor
  · rfl
  · intro evs hne
    unfold createVariants at hne
    have hk : variantKeys evs ≠ [] := by
      intro h
      exact hne (by rw [h]; rfl)
    rcases List.exists_mem_of_ne_nil _ hk with ⟨k, hkmem⟩
    rcases mem_variantKeys.mp hkmem with ⟨c, hc, _⟩
    have : casesList evs ≠ [] := List.ne_nil_of_mem hc
    simpa [List.length_eq_zero] using this

/-- Witness for C7: the sample log yields variants, hence a nonzero case
count. -/
theorem create_variants_empty_log_witness :
    (casesList sampleLog).length ≠ 0 :=
  create_variants_empty_log.2 sampleLog (by decide)

/-! ### C1: order of the derived sequence -/

/-- Modelled from the spec (§4.2): the claimed ordering relation on
(insertion index, event) pairs — ascending timestamp, ties broken by
ascending insertion index. -/
def tsIdxLe (p q : ℕ × Event) : Prop :=
  p.2.timestamp < q.2.timestamp ∨ (p.2.timestamp = q.2.timestamp ∧ p.1 ≤ q.1)

instance : DecidableRel tsIdxLe := fun p q => by
  unfold tsIdxLe
  infer_instance

/-- Modelled from the spec (§4.2): the sequence the spec claims
`create_variants` derives — the case's events sorted by
`(timestamp, insertion_index)` ascending, then their activity names listed
in that order.  Compared against the source definition `caseSeq`. -/
def chronoSequence (evs : List Event) (c : String) : List String :=
  (List.insertionSort tsIdxLe
      (evs.enum.filter (fun p => p.2.case_id = c))).map (fun p => p.2.name)

/-- An event log whose single case is ingested out of chronological order:
the second event precedes the first in time. -/
def outOfOrderLog : List Event :=
  [ ⟨"A", 10, "Ship", 0⟩, ⟨"A", 0, "Create", 0⟩ ]

/-- Counterexample to C1 as stated: `create_variants` never sorts the
per-case name buffer (create_data.py line 637 appends in iteration order of
`Activity.objects.all()`), so on a log ingested out of timestamp order the
derived sequence differs from the chronological one. -/
theorem create_variants_sequence_not_chronological :
    caseSeq outOfOrderLog "A" ≠ chronoSequence outOfOrderLog "A" := by
  decide

/-- C1 amended: the derived sequence lists the case's events in ingestion
(insertion) order — the buffer is never sorted — and therefore agrees with
the chronological (timestamp, insertion-index) order exactly when the
case's events were already ingested with nondecreasing timestamps, as the
repository's generator does. -/
theorem create_variants_sequence_ingestion_order (evs : List Event)
    (c : String)
    (h : (evs.filter (fun e => e.case_id = c)).Pairwise
        (fun a b => a.timestamp ≤ b.timestamp)) :
    caseSeq evs c = chronoSequence evs c := by
  have hfm : evs.filter (fun e => decide (e.case_id = c))
      = (evs.enum.filter (fun p => decide (p.2.case_id = c))).map Prod.snd := by
    conv_lhs => rw [← List.enum_map_snd evs]
    exact List.filter_map Prod.snd evs.enum
  have hidx : (evs.enum.filter (fun p => decide (p.2.case_id = c))).Pairwise
      (fun p q : ℕ × Event => p.1 < q.1) := by
    apply List.Pairwise.filter
    have : List.Pairwise (fun a b : ℕ => a < b) (evs.enum.map Prod.fst) := by
      rw [List.enum_map_fst]
      exact List.pairwise_lt_range _
    exact List.pairwise_map.mp this
  have hts : (evs.enum.filter (fun p => decide (p.2.case_id = c))).Pairwise
      (fun p q : ℕ × Event => p.2.timestamp ≤ q.2.timestamp) := by
    have h' := h
    rw [hfm] at h'
    exact (List.pairwise_map
      (R := fun a b : Event => a.timestamp ≤ b.timestamp)).mp h'
  have hsorted : List.Sorted tsIdxLe
      (evs.enum.filter (fun p => decide (p.2.case_id = c))) := by
    apply (hidx.and hts).imp
    intro p q hpq
    rcases lt_or_eq_of_le hpq.2 with hlt | heq
    · exact Or.inl hlt
    · exact Or.inr ⟨heq, le_of_lt hpq.1⟩
  unfold caseSeq chronoSequence
  rw [hsorted.insertionSort_eq, hfm, List.map_map]
  rfl

/-- Witness for the amended C1 at the (chronologically ingested) sample
log. -/
theorem create_variants_sequence_ingestion_order_witness :
    caseSeq sampleLog "A" = chronoSequence sampleLog "A" :=
  create_variants_sequence_ingestion_order sampleLog "A" (by decide)

/-! ### C2 and C9: the TPT pass -/

/-- The inner loop of `add_TPT` (create_data.py lines 693-699) over one
case's activities (the queryset
`Activity.objects.filter(case_index=index).order_by('timestamp')`): for
`i in range(len - 1)` the current activity's `tpt` becomes
`(next.timestamp - current.timestamp).total_seconds()`; the final activity
is never written to. -/
def addTPTCase : List Event → List Event
  | [] => []
  | [e] => [e]
  | e :: f :: rest =>
      { e with tpt := f.timestamp - e.timestamp } :: addTPTCase (f :: rest)

/-- `order_by('timestamp')` on a case's activities, as used by `add_TPT`
(line 691) and `add_time_to_cases` (line 788). -/
def orderByTimestamp (l : List Event) : List Event :=
  List.insertionSort (fun a b => a.timestamp ≤ b.timestamp) l

theorem length_addTPTCase (l : List Event) :
    (addTPTCase l).length = l.length := by
  induction l with
  | nil => rfl
  | cons e t ih =>
    cases t with
    | nil => rfl
    | cons f rest =>
      show (addTPTCase (f :: rest)).length + 1 = (f :: rest).length + 1
      rw [ih]

theorem addTPTCase_getElem? (l : List Event) : ∀ i : ℕ,
    (addTPTCase l)[i]? = (l[i]?).map (fun e =>
      match l[i + 1]? with
      | some f => { e with tpt := f.timestamp - e.timestamp }
      | none => e) := by
  induction l with
  | nil => intro i; simp [addTPTCase]
  | cons e t ih =>
    cases t with
    | nil =>
      intro i
      match i with
      | 0 => simp [addTPTCase]
      | n + 1 => simp [addTPTCase]
    | cons f rest =>
      intro i
      match i with
      | 0 => simp [addTPTCase]
      | n + 1 =>
        simp only [addTPTCase, List.getElem?_cons_succ]
        rw [ih n, List.getElem?_cons_succ]

theorem addTPTCase_getLast? (l : List Event) :
    (addTPTCase l).getLast? = l.getLast? := by
  cases l with
  | nil => rfl
  | cons a t =>
    rw [List.getLast?_eq_getElem?, List.getLast?_eq_getElem?, length_addTPTCase,
      addTPTCase_getElem?]
    have hlen : (a :: t).length - 1 + 1 = (a :: t).length := by
      simp
    rw [hlen, List.getElem?_eq_none (Nat.le_refl _)]
    cases h : (a :: t)[(a :: t).length - 1]? <;> rfl

/-- C2: for a case's chronologically sorted events, `add_TPT` writes
`tpt(eᵢ) = eᵢ₊₁.timestamp − eᵢ.timestamp` (in seconds) for every non-final
event, and leaves the final event untouched. -/
theorem add_TPT_adjacent_diff (l : List Event) :
    (∀ (i : ℕ) (e f : Event), l[i]? = some e → l[i + 1]? = some f →
        (addTPTCase l)[i]? = some { e with tpt := f.timestamp - e.timestamp })
    ∧ (addTPTCase l).getLast? = l.getLast? := by
  constructor
  · intro i e f he hf
    rw [addTPTCase_getElem? l i, he, hf]
    rfl
  · exact addTPTCase_getLast? l

/-- The claim's own example case: three events at t₀, t₀+10s, t₀+25s. -/
def tptExample : List Event :=
  [ ⟨"K", 0, "a", 0⟩, ⟨"K", 10, "b", 0⟩, ⟨"K", 25, "c", 0⟩ ]

/-- Witness for C2 at the claim's example: tpt(e₁) = 10, tpt(e₂) = 15, and
e₃ is untouched. -/
theorem add_TPT_adjacent_diff_witness :
    (addTPTCase tptExample)[0]? = some ⟨"K", 0, "a", 10⟩
    ∧ (addTPTCase tptExample)[1]? = some ⟨"K", 10, "b", 15⟩
    ∧ (addTPTCase tptExample).getLast? = tptExample.getLast? := by
  refine ⟨?_, ?_, (add_TPT_adjacent_diff tptExample).2⟩
  · exact ((add_TPT_adjacent_diff tptExample).1 0 ⟨"K", 0, "a", 0⟩
      ⟨"K", 10, "b", 0⟩ rfl rfl).trans (by norm_num)
  · exact ((add_TPT_adjacent_diff tptExample).1 1 ⟨"K", 10, "b", 0⟩
      ⟨"K", 25, "c", 0⟩ rfl rfl).trans (by norm_num)

/-- C9: events are created with the `Activity.tpt` column at its declared
default 0 (models.py line 154; `save_activity` never passes `tpt`).  After
the TPT pass the final event of every case still carries exactly 0, while a
non-final event followed by an equal-timestamp event is assigned 0 as well —
at the read interface the two are indistinguishable. -/
theorem add_TPT_final_event_tpt_zero (evs : List Event)
    (h0 : ∀ e ∈ evs, e.tpt = 0) (c : String) :
    (∀ e' : Event,
        (addTPTCase (orderByTimestamp
          (evs.filter (fun e => e.case_id = c)))).getLast? = some e' →
        e'.tpt = 0)
    ∧ (∀ (i : ℕ) (e f : Event),
        (orderByTimestamp (evs.filter (fun e => e.case_id = c)))[i]? = some e →
        (orderByTimestamp (evs.filter (fun e => e.case_id = c)))[i + 1]? = some f →
        e.timestamp = f.timestamp →
        (addTPTCase (orderByTimestamp
          (evs.filter (fun e => e.case_id = c))))[i]? = some { e with tpt := 0 }) := by
  constructor
  · intro e' hlast
    rw [addTPTCase_getLast?] at hlast
    have hmem' : e' ∈ orderByTimestamp (evs.filter (fun e => e.case_id = c)) := by
      rcases List.mem_getLast?_eq_getLast (l :=
        orderByTimestamp (evs.filter (fun e => e.case_id = c))) hlast with ⟨hne, rfl⟩
      exact List.getLast_mem hne
    have hmem : e' ∈ evs := by
      have := (List.perm_insertionSort
        (fun a b : Event => a.timestamp ≤ b.timestamp)
        (evs.filter (fun e => e.case_id = c))).mem_iff.mp hmem'
      exact List.mem_of_mem_filter this
    exact h0 e' hmem
  · intro i e f he hf heq
    have h2 := addTPTCase_getElem?
      (orderByTimestamp (evs.filter (fun e => e.case_id = c))) i
    rw [he, hf] at h2
    rw [h2]
    simp [heq]

/-- Witness for C9 at the sample log: the last event of case `A` keeps
tpt = 0 after the pass. -/
theorem add_TPT_final_event_tpt_zero_witness :
    (⟨"A", 60, "Approve", 0⟩ : Event).tpt = 0 :=
  (add_TPT_final_event_tpt_zero sampleLog (by decide) "A").1
    ⟨"A", 60, "Approve", 0⟩ (by decide)

/-! ### C5: mean duration per activity name -/

/-- `get_case_activity_time` plus the pairing loop of
`get_mean_time_per_activity` (create_data.py lines 716-759): each case's
activity list in ingestion order, paired with its successor
(`activities[i]`, `activities[i+1]`), cases visited in first-seen order. -/
def activityPairs (evs : List Event) : List (Event × Event) :=
  (casesList evs).flatMap (fun c =>
    let acts := evs.filter (fun e => e.case_id = c)
    acts.zip acts.tail)

/-- `activity_durations[a]` at the end of the loop (create_data.py lines
751-759): for every adjacent pair whose current activity is named `a`,
`duration = abs(next_timestamp - current_timestamp)` in seconds — note the
`abs` on line 758. -/
def activityDurations (evs : List Event) (a : String) : List ℚ :=
  ((activityPairs evs).filter (fun p => p.1.name = a)).map
    (fun p => |p.2.timestamp - p.1.timestamp|)

/-- `mean_time_per_activity[a]` (create_data.py lines 761-763):
`sum(durations) / len(durations)`. -/
def meanTimePerActivity (evs : List Event) (a : String) : ℚ :=
  (activityDurations evs a).sum / ((activityDurations evs a).length : ℚ)

/-- Modelled from the spec (§4.4): the raw signed adjacent-pair durations
(next minus current, negative values passed through as-is) grouped by the
current event's activity name.  Compared against the source definition
`activityDurations`. -/
def rawActivityDurations (evs : List Event) (a : String) : List ℚ :=
  ((activityPairs evs).filter (fun p => p.1.name = a)).map
    (fun p => p.2.timestamp - p.1.timestamp)

/-- Modelled from the spec (§4.4): the mean of the raw signed durations. -/
def rawMeanTimePerActivity (evs : List Event) (a : String) : ℚ :=
  (rawActivityDurations evs a).sum / ((rawActivityDurations evs a).length : ℚ)

/-- Counterexample to C5 as stated: on a case whose successor event is
earlier in time, the code averages `abs(next - current)` (create_data.py
line 758), not the raw negative duration: the mean for `Ship` is 10, not
the raw -10. -/
theorem mean_time_per_activity_not_raw :
    meanTimePerActivity outOfOrderLog "Ship"
      ≠ rawMeanTimePerActivity outOfOrderLog "Ship" := by
  have h1 : meanTimePerActivity outOfOrderLog "Ship" = 10 := by
    norm_num [meanTimePerActivity, activityDurations, activityPairs,
      casesList, firstSeen, insertNew, outOfOrderLog, List.filter, List.flatMap]
  have h2 : rawMeanTimePerActivity outOfOrderLog "Ship" = -10 := by
    norm_num [rawMeanTimePerActivity, rawActivityDurations, activityPairs,
      casesList, firstSeen, insertNew, outOfOrderLog, List.filter, List.flatMap]
  rw [h1, h2]
  norm_num

/-- C5 amended: the per-activity mean is the average of the *absolute
values* of the adjacent-pair durations grouped by the current event's
activity name; negative raw durations are folded to their magnitude by the
`abs` call rather than passed through. -/
theorem mean_time_per_activity_abs (evs : List Event) (a : String) :
    meanTimePerActivity evs a
      = ((rawActivityDurations evs a).map (fun d => |d|)).sum
          / (((rawActivityDurations evs a).length : ℚ)) := by
  unfold meanTimePerActivity activityDurations rawActivityDurations
  rw [List.map_map, List.length_map, List.length_map]
  rfl

/-! ### C6: per-case throughput and per-variant mean throughput -/

theorem head_le_of_sorted {l : List ℚ}
    (hs : List.Sorted (fun a b => a ≤ b) l) :
    ∀ x ∈ l, ∀ hne : l ≠ [], l.head hne ≤ x := by
  cases l with
  | nil => simp
  | cons a t =>
    intro x hx _
    rcases List.mem_cons.mp hx with rfl | hxt
    · exact le_refl _
    · exact (List.sorted_cons.mp hs).1 x hxt

theorem le_getLast_of_sorted {l : List ℚ}
    (hs : List.Sorted (fun a b => a ≤ b) l) :
    ∀ x ∈ l, ∀ hne : l ≠ [], x ≤ l.getLast hne := by
  induction l with
  | nil => simp
  | cons a t ih =>
    intro x hx hne
    rcases List.mem_cons.mp hx with rfl | hxt
    · cases t with
      | nil => simp [List.getLast]
      | cons b u =>
        rw [List.getLast_cons (by simp)]
        exact le_trans ((List.sorted_cons.mp hs).1 _ (List.getLast_mem _))
          (le_refl _)
    · cases t with
      | nil => simp at hxt
      | cons b u =>
        rw [List.getLast_cons (by simp)]
        exact ih (List.sorted_cons.mp hs).2 x hxt (by simp)

/-- C6: the per-case duration written by `create_variants` (lines 651-658)
and `add_time_to_cases` (lines 786-796) is (chronologically last timestamp)
minus (chronologically first timestamp); a single-event case gets 0; and
each variant's `avg_time` is the average of its member cases' durations. -/
theorem case_throughput_last_minus_first (evs : List Event) (c : String)
    (h : evs.filter (fun e => e.case_id = c) ≠ []) :
    (∃ tmax tmin : ℚ,
        tmax ∈ caseTimes evs c ∧ tmin ∈ caseTimes evs c
        ∧ (∀ t ∈ caseTimes evs c, tmin ≤ t ∧ t ≤ tmax)
        ∧ caseDuration evs c = tmax - tmin)
    ∧ ((evs.filter (fun e => e.case_id = c)).length = 1 →
        caseDuration evs c = 0)
    ∧ (∀ v ∈ createVariants evs,
        v.avg_time = ((v.cases.map (caseDuration evs)).sum)
          / (v.cases.length : ℚ)) := by
  have hts : caseTimes evs c ≠ [] := by
    unfold caseTimes
    simpa using h
  have hperm := List.perm_insertionSort (fun a b : ℚ => a ≤ b) (caseTimes evs c)
  have hsne : List.insertionSort (fun a b : ℚ => a ≤ b) (caseTimes evs c) ≠ [] := by
    intro hnil
    have hp := hperm
    rw [hnil] at hp
    exact hts hp.symm.eq_nil
  have hsorted : List.Sorted (fun a b : ℚ => a ≤ b)
      (List.insertionSort (fun a b : ℚ => a ≤ b) (caseTimes evs c)) :=
    List.sorted_insertionSort _ _
  refine ⟨?_, ?_, ?_⟩
  · refine ⟨(List.insertionSort (fun a b : ℚ => a ≤ b) (caseTimes evs c)).getLast hsne,
      (List.insertionSort (fun a b : ℚ => a ≤ b) (caseTimes evs c)).head hsne,
      ?_, ?_, ?_, ?_⟩
    · exact hperm.mem_iff.mp (List.getLast_mem hsne)
    · exact hperm.mem_iff.mp (List.head_mem hsne)
    · intro t ht
      have ht' : t ∈ List.insertionSort (fun a b : ℚ => a ≤ b) (caseTimes evs c) :=
        hperm.mem_iff.mpr ht
      exact ⟨head_le_of_sorted hsorted t ht' hsne,
        le_getLast_of_sorted hsorted t ht' hsne⟩
    · show (List.insertionSort (fun a b : ℚ => a ≤ b) (caseTimes evs c)).getLast?.getD 0
          - (List.insertionSort (fun a b : ℚ => a ≤ b) (caseTimes evs c)).head?.getD 0
        = _
      rw [List.getLast?_eq_getLast_of_ne_nil hsne, List.head?_eq_head hsne]
      rfl
  · intro hlen
    have : (caseTimes evs c).length = 1 := by
      unfold caseTimes
      simpa using hlen
    rcases List.length_eq_one.mp this with ⟨t, ht⟩
    unfold caseDuration
    rw [ht]
    norm_num [List.insertionSort]
  · intro v hv
    unfold createVariants at hv
    rcases List.mem_map.mp hv with ⟨k, _, rfl⟩
    rfl

/-- Witness for C6 at the sample log, case `A` (two events, 0 and 60
seconds). -/
theorem case_throughput_last_minus_first_witness :
    ∃ tmax tmin : ℚ,
      tmax ∈ caseTimes sampleLog "A" ∧ tmin ∈ caseTimes sampleLog "A"
      ∧ (∀ t ∈ caseTimes sampleLog "A", tmin ≤ t ∧ t ≤ tmax)
      ∧ caseDuration sampleLog "A" = tmax - tmin :=
  (case_throughput_last_minus_first sampleLog "A" (by decide)).1

/-! ### C8: date-filter validation in `ActivityList.get` -/

/-- Value of an ASCII decimal numeral, most significant digit first (the
`int` conversion inside `strptime`). -/
def digitsToNat (l : List Char) : ℕ :=
  l.foldl (fun n c => n * 10 + (c.toNat - 48)) 0

/-- The Gregorian leap-year rule `datetime` applies. -/
def isLeap (y : ℕ) : Bool :=
  (y % 4 == 0 && y % 100 != 0) || y % 400 == 0

/-- Month lengths used by `datetime` when validating a day number. -/
def daysInMonth (y m : ℕ) : ℕ :=
  if m = 2 then (if isLeap y then 29 else 28)
  else if m = 4 ∨ m = 6 ∨ m = 9 ∨ m = 11 then 30
  else 31

/-- `datetime.strptime(s, "%Y-%m-%d")` (views.py lines 88 and 90), for
ASCII-digit inputs: `%Y` is exactly four digits, `%m` and `%d` one or two
digits with month 1-12 and day 1-31, the whole string is consumed, and the
subsequent `datetime` construction demands year ≥ 1 and day ≤ length of the
month.  (Python's `\d` also accepts non-ASCII decimal digits; those never
occur in the claims and are out of scope.) -/
def parseYMD (s : String) : Option (ℕ × ℕ × ℕ) :=
  match s.toList.splitOn '-' with
  | [ys, ms, ds] =>
      if ys.length = 4 ∧ ys.all Char.isDigit
          ∧ 1 ≤ ms.length ∧ ms.length ≤ 2 ∧ ms.all Char.isDigit
          ∧ 1 ≤ ds.length ∧ ds.length ≤ 2 ∧ ds.all Char.isDigit then
        let y := digitsToNat ys
        let m := digitsToNat ms
        let d := digitsToNat ds
        if 1 ≤ y ∧ 1 ≤ m ∧ m ≤ 12 ∧ 1 ≤ d ∧ d ≤ daysInMonth y m then
          some (y, m, d)
        else none
      else none
  | _ => none

/-- One request parameter through the guard `if start_date:` (views.py
lines 87-90): `None` and the empty string are falsy and skipped without a
parse attempt; any other value is parsed, a failure raising the
`ValueError` that the handler converts into the 400 response. -/
def checkDateParam (o : Option String) : Except String (Option (ℕ × ℕ × ℕ)) :=
  match o with
  | none => Except.ok none
  | some s =>
      if s = "" then Except.ok none
      else
        match parseYMD s with
        | some d => Except.ok (some d)
        | none => Except.error "Invalid date format. Use YYYY-MM-DD."

/-- The date-validation prologue of `ActivityList.get` (views.py lines
85-94): `start_date` first, then `end_date`; the first failure returns the
400 response immediately, before any queryset filtering is built, and
nothing is retried. -/
def activityListDateCheck (sd ed : Option String) :
    Except String (Option (ℕ × ℕ × ℕ) × Option (ℕ × ℕ × ℕ)) :=
  match checkDateParam sd with
  | Except.error e => Except.error e
  | Except.ok s =>
      match checkDateParam ed with
      | Except.error e => Except.error e
      | Except.ok t => Except.ok (s, t)

/-- Whether the handler answered with the 400 invalid-date response. -/
def isBadRequest {α : Type} : Except String α → Bool
  | Except.error _ => true
  | Except.ok _ => false

theorem isBadRequest_checkDateParam (o : Option String) :
    isBadRequest (checkDateParam o) = true
      ↔ ∃ s, o = some s ∧ s ≠ "" ∧ parseYMD s = none := by
  cases o with
  | none => simp [checkDateParam, isBadRequest]
  | some s =>
    by_cases hs : s = ""
    · subst hs
      simp [checkDateParam, isBadRequest]
    · cases hp : parseYMD s with
      | none => simp [checkDateParam, hs, hp, isBadRequest]
      | some d => simp [checkDateParam, hs, hp, isBadRequest]

/-- Counterexample to C8 as stated: `start_date=""` supplies a value that
cannot be parsed as `YYYY-MM-DD`, yet `if start_date:` treats the empty
string as absent, so the request proceeds without the 400 response. -/
theorem date_filter_empty_string_no_error :
    isBadRequest (activityListDateCheck (some "") none) = false
    ∧ parseYMD "" = none := by
  constructor
  · rfl
  · rfl

/-- C8 amended: the query answers with the 400 invalid-date response iff a
supplied *non-empty* `start_date` or `end_date` value fails to parse as
`YYYY-MM-DD`; the error return precedes all filtering and nothing is
retried. -/
theorem date_filter_invalid_400 (sd ed : Option String) :
    isBadRequest (activityListDateCheck sd ed) = true
      ↔ (∃ s, sd = some s ∧ s ≠ "" ∧ parseYMD s = none)
        ∨ (∃ s, ed = some s ∧ s ≠ "" ∧ parseYMD s = none) := by
  unfold activityListDateCheck
  cases h1 : checkDateParam sd with
  | error e =>
    constructor
    · intro _
      exact Or.inl ((isBadRequest_checkDateParam sd).mp (by rw [h1]; rfl))
    · intro _
      rfl
  | ok s' =>
    cases h2 : checkDateParam ed with
    | error e =>
      constructor
      · intro _
        exact Or.inr ((isBadRequest_checkDateParam ed).mp (by rw [h2]; rfl))
      · intro _
        rfl
    | ok t =>
      constructor
      · intro hbad
        exact absurd hbad (by simp [isBadRequest])
      · rintro (hb | hb)
        · have := (isBadRequest_checkDateParam sd).mpr hb
          rw [h1] at this
          exact absurd this (by simp [isBadRequest])
        · have := (isBadRequest_checkDateParam ed).mpr hb
          rw [h2] at this
          exact absurd this (by simp [isBadRequest])

/-- Witness for the amended C8: a supplied month 13 yields the 400
response. -/
theorem date_filter_invalid_400_witness :
    isBadRequest (activityListDateCheck (some "2024-13-01") none) = true :=
  (date_filter_invalid_400 (some "2024-13-01") none).mpr
    (Or.inl ⟨"2024-13-01", rfl, by decide, by rfl⟩)

/-! ### C10: serialize/parse round trip of the variant member list -/

/-- The whitespace characters `str.strip()` removes (ASCII range: space,
tab, newline, vertical tab, form feed, carriage return). -/
def pySpace (c : Char) : Bool :=
  decide (c = ' ' ∨ c = Char.ofNat 9 ∨ c = Char.ofNat 10
    ∨ c = Char.ofNat 11 ∨ c = Char.ofNat 12 ∨ c = Char.ofNat 13)

/-- `token.strip()` (views.py line 125): remove leading and trailing
whitespace. -/
def pyStrip (l : List Char) : List Char :=
  ((l.dropWhile pySpace).reverse.dropWhile pySpace).reverse

/-- `token.replace("'", "")` (views.py line 125): delete every apostrophe
(character 39). -/
def pyRemoveQuotes (l : List Char) : List Char :=
  l.filter (fun c => decide (c ≠ Char.ofNat 39))

/-- The variant-filter expansion of `ActivityList.get` (views.py lines
117-130): `variant.cases[1:-1]` drops the brackets, `.split(",")` cuts at
commas, and each token is stripped and has its apostrophes removed.  The
code collects the results into a set; the list kept here carries the same
members. -/
def parseVariantCases (s : String) : List String :=
  (((s.toList.drop 1).dropLast).splitOn ',').map
    (fun t => String.mk (pyRemoveQuotes (pyStrip t)))

/-- Lower-case hexadecimal digit, as Python prints in `\xXX` escapes. -/
def hexDigitChar (n : ℕ) : Char :=
  if n < 10 then Char.ofNat (48 + n) else Char.ofNat (87 + n)

/-- One character under Python string `repr` with quote character `q`
(CPython's repr): backslash (92) and the quote are backslash-escaped, tab,
newline and carriage return get named escapes, remaining control characters
(code < 32 or 127) become `\xXX`; printable characters stand for
themselves.  (Non-ASCII non-printable codepoints, which Python also
escapes, never occur in the claims and are modelled as themselves.) -/
def escapeChar (q c : Char) : List Char :=
  if c = Char.ofNat 92 then [Char.ofNat 92, Char.ofNat 92]
  else if c = q then [Char.ofNat 92, q]
  else if c = Char.ofNat 9 then [Char.ofNat 92, 't']
  else if c = Char.ofNat 10 then [Char.ofNat 92, 'n']
  else if c = Char.ofNat 13 then [Char.ofNat 92, 'r']
  else if c.toNat < 32 ∨ c.toNat = 127 then
    [Char.ofNat 92, 'x', hexDigitChar (c.toNat / 16), hexDigitChar (c.toNat % 16)]
  else [c]

/-- Python's `repr` quote choice: an apostrophe (39) unless the string
contains one but no double quote (34). -/
def pyReprQuote (s : List Char) : Char :=
  if Char.ofNat 39 ∈ s ∧ ¬ Char.ofNat 34 ∈ s then Char.ofNat 34 else Char.ofNat 39

/-- Python `repr` of one string: the quote, the escaped characters, the
quote. -/
def pyReprStr (s : List Char) : List Char :=
  pyReprQuote s :: s.flatMap (escapeChar (pyReprQuote s)) ++ [pyReprQuote s]

/-- `str(value)` on the member case-id list (create_data.py line 662):
`[`, the comma-space-joined reprs, `]`. -/
def pyStrListOfStrings (ids : List String) : String :=
  String.mk ('[' ::
    List.intercalate [',', ' '] (ids.map (fun s => pyReprStr s.toList)) ++ [']'])

/-- Characters for which repr escaping is the identity and parsing cuts
nothing: printable ASCII other than comma, apostrophe and backslash. -/
def plainChar (c : Char) : Bool :=
  decide (32 ≤ c.toNat ∧ c.toNat ≤ 126 ∧ c ≠ ','
    ∧ c ≠ Char.ofNat 39 ∧ c ≠ Char.ofNat 92)

theorem escapeChar_plain {c : Char} (h : plainChar c = true) :
    escapeChar (Char.ofNat 39) c = [c] := by
  have h' := of_decide_eq_true h
  obtain ⟨h32, h126, _, h39, h92⟩ := h'
  unfold escapeChar
  rw [if_neg h92, if_neg h39]
  rw [if_neg (by intro hc; subst hc; simp at h32),
    if_neg (by intro hc; subst hc; simp at h32),
    if_neg (by intro hc; subst hc; simp at h32),
    if_neg (by push_neg; omega)]

theorem flatMap_escape_plain {l : List Char}
    (h : ∀ c ∈ l, plainChar c = true) :
    l.flatMap (escapeChar (Char.ofNat 39)) = l := by
  induction l with
  | nil => rfl
  | cons c t ih =>
    rw [List.flatMap_cons, escapeChar_plain (h c (List.mem_cons_self c t)),
      ih (fun x hx => h x (List.mem_cons_of_mem _ hx))]
    rfl

theorem pyReprStr_plain {id : String}
    (h : ∀ c ∈ id.toList, plainChar c = true) :
    pyReprStr id.toList
      = Char.ofNat 39 :: (id.toList ++ [Char.ofNat 39]) := by
  have hq : pyReprQuote id.toList = Char.ofNat 39 := by
    unfold pyReprQuote
    rw [if_neg]
    rintro ⟨h39, -⟩
    have := of_decide_eq_true (h _ h39)
    exact this.2.2.2.1 rfl
  unfold pyReprStr
  rw [hq, flatMap_escape_plain h]
  rfl

theorem pySpace_39 : pySpace (Char.ofNat 39) = false := by decide

theorem pyStrip_quoted (xs : List Char) :
    pyStrip (Char.ofNat 39 :: (xs ++ [Char.ofNat 39]))
      = Char.ofNat 39 :: (xs ++ [Char.ofNat 39]) := by
  unfold pyStrip
  rw [List.dropWhile_cons, pySpace_39]
  simp only [Bool.false_eq_true, if_false]
  have hrev : (Char.ofNat 39 :: (xs ++ [Char.ofNat 39])).reverse
      = Char.ofNat 39 :: (xs.reverse ++ [Char.ofNat 39]) := by
    simp
  rw [hrev, List.dropWhile_cons, pySpace_39]
  simp only [Bool.false_eq_true, if_false]
  rw [← hrev, List.reverse_reverse]

theorem pyStrip_space_quoted (xs : List Char) :
    pyStrip (' ' :: (Char.ofNat 39 :: (xs ++ [Char.ofNat 39])))
      = Char.ofNat 39 :: (xs ++ [Char.ofNat 39]) := by
  have hsp : pySpace ' ' = true := by decide
  have hdw : (' ' :: (Char.ofNat 39 :: (xs ++ [Char.ofNat 39]))).dropWhile pySpace
      = (Char.ofNat 39 :: (xs ++ [Char.ofNat 39])).dropWhile pySpace := by
    rw [List.dropWhile_cons, hsp]
    simp
  unfold pyStrip
  rw [hdw]
  have h2 := pyStrip_quoted xs
  unfold pyStrip at h2
  exact h2

theorem pyRemoveQuotes_quoted {xs : List Char}
    (h : Char.ofNat 39 ∉ xs) :
    pyRemoveQuotes (Char.ofNat 39 :: (xs ++ [Char.ofNat 39])) = xs := by
  unfold pyRemoveQuotes
  have h1 : xs.filter (fun c => decide (c ≠ Char.ofNat 39)) = xs :=
    List.filter_eq_self.mpr (fun c hc => by
      have hcc : c ≠ Char.ofNat 39 := fun hc39 => h (hc39 ▸ hc)
      simpa using hcc)
  simp [List.filter_cons, List.filter_append, h1]
  exact fun a ha hq => h (hq ▸ ha)

theorem intercalate_cons_cons {α : Type} (sep a b : List α) (r : List (List α)) :
    List.intercalate sep (a :: b :: r)
      = a ++ sep ++ List.intercalate sep (b :: r) := by
  simp [List.intercalate, List.intersperse_cons_cons, List.append_assoc]

theorem intercalate_cons_char {α : Type} (sep x : List α) (c : α)
    (M : List (List α)) :
    List.intercalate sep ((c :: x) :: M)
      = c :: List.intercalate sep (x :: M) := by
  cases M with
  | nil => simp [List.intercalate]
  | cons m M' =>
    rw [intercalate_cons_cons, intercalate_cons_cons]
    simp

/-- Joining with `", "` is joining with `","` after prefixing every later
token with a space. -/
theorem intercalate_comma_space :
    ∀ (rest : List (List Char)) (a : List Char),
      List.intercalate [',', ' '] (a :: rest)
        = List.intercalate [','] (a :: rest.map (fun t => ' ' :: t)) := by
  intro rest
  induction rest with
  | nil => intro a; rfl
  | cons b r ih =>
    intro a
    rw [List.map_cons, intercalate_cons_cons, intercalate_cons_cons,
      intercalate_cons_char, ← ih b]
    simp

/-- A log of one case whose single id contains a backslash. -/
def backslashIds : List String := ["a\\b"]

/-- Counterexample to C10 as stated: the id `a\b` contains no comma and no
apostrophe, yet Python `str` escapes the backslash (`'a\\b'`), and the
views-side parse keeps both backslashes, so the serialized member id is not
recovered: the parse yields `a\\b`, and `a\b` is not among the recovered
ids. -/
theorem variant_cases_roundtrip_backslash :
    parseVariantCases (pyStrListOfStrings backslashIds) = ["a\\\\b"]
    ∧ ¬ ("a\\b" ∈ parseVariantCases (pyStrListOfStrings backslashIds)) := by
  constructor
  · rfl
  · decide

/-- C10 amended: the serialize/parse round trip recovers exactly the member
case ids for every variant whose ids consist of printable ASCII characters
other than comma, apostrophe and backslash (for a backslash or a control
character, Python `repr` escaping breaks the round trip).  Variant member
lists produced by the classifier are nonempty, matching the nonemptiness
hypothesis. -/
theorem variant_cases_roundtrip (ids : List String) (hne : ids ≠ [])
    (hchars : ∀ id ∈ ids, ∀ c ∈ id.toList, plainChar c = true) :
    parseVariantCases (pyStrListOfStrings ids) = ids := by
  rcases ids with _ | ⟨a, rest⟩
  · exact absurd rfl hne
  have hT : ∀ id ∈ a :: rest,
      pyReprStr id.toList = Char.ofNat 39 :: (id.toList ++ [Char.ofNat 39]) :=
    fun id hid => pyReprStr_plain (hchars id hid)
  have hstep1 : ((pyStrListOfStrings (a :: rest)).toList.drop 1).dropLast
      = List.intercalate [',', ' ']
          ((a :: rest).map (fun s => pyReprStr s.toList)) := by
    show (List.intercalate [',', ' ']
        ((a :: rest).map (fun s => pyReprStr s.toList)) ++ [']']).dropLast = _
    exact List.dropLast_concat
  have hmapT : (a :: rest).map (fun s => pyReprStr s.toList)
      = (Char.ofNat 39 :: (a.toList ++ [Char.ofNat 39]))
          :: rest.map (fun s => Char.ofNat 39 :: (s.toList ++ [Char.ofNat 39])) := by
    rw [List.map_congr_left hT, List.map_cons]
  have hcomma : ∀ id ∈ a :: rest,
      (',' : Char) ∉ Char.ofNat 39 :: (id.toList ++ [Char.ofNat 39]) := by
    intro id hid hmem
    rcases List.mem_cons.mp hmem with h39 | hmem2
    · exact absurd h39 (by decide)
    rcases List.mem_append.mp hmem2 with hin | h39b
    · exact (of_decide_eq_true (hchars id hid ',' hin)).2.2.1 rfl
    · have : (',' : Char) = Char.ofNat 39 := by simp at h39b
      exact absurd this (by decide)
  have hsplit : (List.intercalate [',', ' ']
        ((a :: rest).map (fun s => pyReprStr s.toList))).splitOn ','
      = (Char.ofNat 39 :: (a.toList ++ [Char.ofNat 39]))
          :: (rest.map (fun s => Char.ofNat 39 :: (s.toList ++ [Char.ofNat 39]))).map
              (fun t => ' ' :: t) := by
    rw [hmapT, intercalate_comma_space]
    apply List.splitOn_intercalate
    · intro l hl
      rcases List.mem_cons.mp hl with rfl | hl2
      · exact hcomma a (List.mem_cons_self a rest)
      · rcases List.mem_map.mp hl2 with ⟨t, ht, rfl⟩
        rcases List.mem_map.mp ht with ⟨id, hid, rfl⟩
        intro hmem
        rcases List.mem_cons.mp hmem with hsp | hmem2
        · exact absurd hsp (by decide)
        · exact hcomma id (List.mem_cons_of_mem a hid) hmem2
    · exact List.cons_ne_nil _ _
  unfold parseVariantCases
  rw [hstep1, hsplit, List.map_cons, List.map_map, List.map_map]
  have hhead : String.mk (pyRemoveQuotes (pyStrip
      (Char.ofNat 39 :: (a.toList ++ [Char.ofNat 39])))) = a := by
    rw [pyStrip_quoted, pyRemoveQuotes_quoted]
    · rfl
    · intro hmem
      exact (of_decide_eq_true
        (hchars a (List.mem_cons_self a rest) _ hmem)).2.2.2.1 rfl
  have htail : ∀ id ∈ rest,
      (((fun t => String.mk (pyRemoveQuotes (pyStrip t))) ∘
        (fun t => ' ' :: t)) ∘
        (fun s => Char.ofNat 39 :: (s.toList ++ [Char.ofNat 39]))) id = id := by
    intro id hid
    show String.mk (pyRemoveQuotes (pyStrip
      (' ' :: (Char.ofNat 39 :: (id.toList ++ [Char.ofNat 39]))))) = id
    rw [pyStrip_space_quoted, pyRemoveQuotes_quoted]
    · rfl
    · intro hmem
      exact (of_decide_eq_true
        (hchars id (List.mem_cons_of_mem a hid) _ hmem)).2.2.2.1 rfl
  rw [hhead, List.map_congr_left htail]
  simp

/-- Witness for the amended C10 at two plain ids. -/
theorem variant_cases_roundtrip_witness :
    parseVariantCases (pyStrListOfStrings ["A1", "B2"]) = ["A1", "B2"] :=
  variant_cases_roundtrip ["A1", "B2"] (by decide) (by decide)

end VP
